import Mathlib

/-!
Verification development for the SQLFileExecutor repository.

The embedding models, from src/SQLFileExecutor/SQLFileExecutor.py:
  * the statement extractor `_read_sql` (the regular expressions
    `(?:SELECT|INSERT|DELETE|UPDATE|CREATE|ALTER|DROP)[ \t]+.*?;` with
    DOTALL and IGNORECASE, and the comment regex `^-+.*$` compiled with
    NO flags, plus the `strip`/`replace` clean-up lambda);
  * the transactional runner `exec` as a trace-producing function over an
    abstract database model (cursor acquisition may fail, each statement
    execution may fail, commit and close are recorded as events);
and, from src/SQLFileExecutor/fsqlexec.py:
  * `fname_line_to_array`, `check_file_list_exists` and `create_sql_files`
    over an abstract file-existence predicate.
A small heap model captures the `copy.copy` aliasing behaviour of the
constructor and of the `sql_files` property.
-/

namespace SQLFileExec

/-- Keyword allow-list `SQLCOMMANDS` from the class body. -/
def SQLCOMMANDS : List String :=
  ["SELECT", "INSERT", "DELETE", "UPDATE", "CREATE", "ALTER", "DROP"]

/-- Case-insensitive keyword match at the head of the input: given the
keyword (upper case) and the input characters, return the consumed input
characters (original case) and the rest, when the keyword is present. -/
def kwMatchCI : List Char → List Char → Option (List Char × List Char)
  | [], cs => some ([], cs)
  | _ :: _, [] => none
  | k :: ks, c :: cs =>
    if c.toUpper = k then
      match kwMatchCI ks cs with
      | some (m, rest) => some (c :: m, rest)
      | none => none
    else none

/-- Try the alternatives of the keyword alternation in order, as the
regex engine does. -/
def matchKeywordAux : List String → List Char → Option (List Char × List Char)
  | [], _ => none
  | kw :: kws, cs =>
    match kwMatchCI kw.toList cs with
    | some r => some r
    | none => matchKeywordAux kws cs

/-- Match one of the seven allow-listed keywords at the head of the input. -/
def matchKeyword (cs : List Char) : Option (List Char × List Char) :=
  matchKeywordAux SQLCOMMANDS cs

/-- Split the input at the first `;`: the first component is everything up
to and including that `;`, the second the remaining characters.  `none`
when the input holds no `;`.  This is the lazy `.*?;` part of the
statement regex (DOTALL, so newlines are included). -/
def splitAtSemi : List Char → Option (List Char × List Char)
  | [] => none
  | c :: cs =>
    if c = ';' then some ([c], cs)
    else
      match splitAtSemi cs with
      | some (m, rest) => some (c :: m, rest)
      | none => none

/-- Try to match the whole statement regex at the head of the input:
a keyword, then at least one space or tab, then (lazily) up to the first
`;`.  `[ \t]+` is greedy, but since `;` is neither a space nor a tab the
match always ends at the first `;` after the single mandatory whitespace
character, so consuming one whitespace character and then splitting at the
first `;` is an exact model.  Returns the matched text and the rest of the
input after the match. -/
def tryMatch (cs : List Char) : Option (List Char × List Char) :=
  match matchKeyword cs with
  | none => none
  | some (kwm, rest) =>
    match rest with
    | [] => none
    | c :: rest₂ =>
      if c = ' ' ∨ c = '\t' then
        match splitAtSemi rest₂ with
        | some (body, after) => some (kwm ++ c :: body, after)
        | none => none
      else none

/-- Left-to-right, non-overlapping scan of `re.findall`: at each position
try the statement regex; on a match, record it and resume after the match,
otherwise advance one character.  The fuel argument (instantiated with the
input length, which every step strictly decreases) makes the recursion
structural. -/
def findallAux : Nat → List Char → List (List Char)
  | 0, _ => []
  | _ + 1, [] => []
  | fuel + 1, c :: cs =>
    match tryMatch (c :: cs) with
    | some (m, rest) => m :: findallAux fuel rest
    | none => findallAux fuel cs

/-- All statement-regex matches of the input, in order. -/
def findall (cs : List Char) : List (List Char) :=
  findallAux cs.length cs

/-- Python `str.strip()` on the character list: drop whitespace from both
ends (modelled over the ASCII whitespace characters, which are the only
ones these SQL files contain). -/
def pyStrip (cs : List Char) : List Char :=
  (((cs.dropWhile Char.isWhitespace).reverse).dropWhile Char.isWhitespace).reverse

/-- The clean-up lambda `delfn`: `sql.replace("\n", " ").replace(";", "")` —
every newline becomes a single space, then every `;` is removed. -/
def delfn (cs : List Char) : List Char :=
  (cs.map (fun c => if c = '\n' then ' ' else c)).filter (fun c => !(c = ';'))

/-- The comment substitution `re.sub(r'^-+.*$', '', contents)` with NO
flags.  Without `re.MULTILINE`, `^` anchors only at the start of the whole
string and `$` only at its end (or just before a single final newline),
and `.` does not cross newlines; so the regex matches exactly when the
contents begin with a `-` and contain no newline other than, possibly, one
final newline — i.e. only when the entire file is a single comment line.
In every other case the substitution leaves the contents unchanged. -/
def commentSub (cs : List Char) : List Char :=
  if cs.head? = some '-' then
    if cs.getLast? = some '\n' then
      if '\n' ∈ cs.dropLast then cs else ['\n']
    else
      if '\n' ∈ cs then cs else []
  else cs

/-- Statement extraction for the contents of one file, as `_read_sql`
performs it: comment substitution, `findall`, then per match
`delfn(sql.strip())`. -/
def extractStatements (contents : String) : List String :=
  (findall (commentSub contents.toList)).map (fun m => String.mk (delfn (pyStrip m)))

/-- The `_read_sql` loop over the file list: read each file in input
order (`readFile` returns `none` for an IO error), extract its statements
and append the resulting list; the first IO error aborts the whole run,
carrying the offending file name. -/
def readSql (readFile : String → Option String) : List String → Except String (List (List String))
  | [] => .ok []
  | fname :: rest =>
    match readFile fname with
    | none => .error fname
    | some contents =>
      match readSql readFile rest with
      | .ok ls => .ok (extractStatements contents :: ls)
      | .error e => .error e

/-- Abstract database model for `exec`: whether `dbcon.cursor(...)` raises
(`cursorOk = false` means a `psycopg2.Error` on acquisition) and which
statement texts `cur.execute` fails on. -/
structure DBModel where
  cursorOk : Bool
  failsOn : String → Bool

/-- Observable events of one `exec` run, in order. -/
inductive Event where
  | getCursor : Event
  | execStmt (file sql : String) : Event
  | commit : Event
  | rollback : Event
  | closeCursor : Event
  deriving DecidableEq, Repr

/-- Outcome propagated to the caller of `exec`.  `stmtError` is the
database error re-raised for a failing statement, attributed (in the error
report) to its file and exact statement text; `attributeError` is the
`AttributeError` raised by `cur.close()` in the `finally` block when
cursor acquisition failed and `cur` is still `None` — in Python it
replaces the in-flight acquisition error. -/
inductive Outcome where
  | ok : Outcome
  | stmtError (file sql : String) : Outcome
  | attributeError : Outcome
  deriving DecidableEq, Repr

/-- Inner loop of `exec` over one file's statements: execute each in
order; the first failing statement stops the loop and is returned. -/
def runStmtsFile (failsOn : String → Bool) (fname : String) :
    List String → List Event × Option String
  | [] => ([], none)
  | sql :: rest =>
    if failsOn sql then ([Event.execStmt fname sql], some sql)
    else
      let p := runStmtsFile failsOn fname rest
      (Event.execStmt fname sql :: p.1, p.2)

/-- Outer loop of `exec` over the (file, statements) pairs, in input
order: a failing statement aborts the remaining files and is returned with
its file name. -/
def runFiles (failsOn : String → Bool) :
    List (String × List String) → List Event × Option (String × String)
  | [] => ([], none)
  | (fname, cmds) :: rest =>
    let p := runStmtsFile failsOn fname cmds
    match p.2 with
    | some sql => (p.1, some (fname, sql))
    | none =>
      let q := runFiles failsOn rest
      (p.1 ++ q.1, q.2)

/-- The `exec` method as a trace of events plus the propagated outcome.
When the cursor is acquired, the statement loops run and the `finally`
block then performs `dbcon.commit()` followed by `cur.close()`, whatever
the loop outcome was (the code comments say rollback happens on error, but
the block unconditionally commits).  When cursor acquisition fails, the
`finally` block still performs `dbcon.commit()`, and then `cur.close()`
is evaluated with `cur = None`, raising `AttributeError` before any
cursor is closed. -/
def execModel (db : DBModel) (pairs : List (String × List String)) :
    List Event × Outcome :=
  if db.cursorOk then
    let p := runFiles db.failsOn pairs
    match p.2 with
    | none =>
      (Event.getCursor :: p.1 ++ [Event.commit, Event.closeCursor], Outcome.ok)
    | some (f, s) =>
      (Event.getCursor :: p.1 ++ [Event.commit, Event.closeCursor], Outcome.stmtError f s)
  else
    ([Event.commit], Outcome.attributeError)

/-- Flatten the (file, statements) pairs into the file-order, then
statement-order sequence of (file, statement) pairs that `exec` walks. -/
def flattenPairs : List (String × List String) → List (String × String)
  | [] => []
  | (fname, cmds) :: rest => cmds.map (fun s => (fname, s)) ++ flattenPairs rest

/-- Specification-level runner over the flattened statement sequence. -/
def runFlat (failsOn : String → Bool) :
    List (String × String) → List Event × Option (String × String)
  | [] => ([], none)
  | (f, s) :: rest =>
    if failsOn s then ([Event.execStmt f s], some (f, s))
    else
      let p := runFlat failsOn rest
      (Event.execStmt f s :: p.1, p.2)

/-- Method names defined by the `SQLFileExecutor` class: the constructor,
`_read_sql`, `exec`, and the two properties.  There is no `close` method,
although `fsqlexec.cmd` calls `sqlexec.close()` in its `finally` block. -/
def sqlFileExecutorMethods : List String :=
  ["__init__", "_read_sql", "exec", "sql_files", "sql_commands"]

/-- Python `str.rstrip()`: drop trailing whitespace. -/
def pyRstrip (s : String) : String :=
  String.mk ((s.toList.reverse.dropWhile Char.isWhitespace).reverse)

/-- Function `fname_line_to_array` of fsqlexec.py: `none` models a `None`
file-name argument (empty result); otherwise the exclude file's lines,
each `rstrip`-ped. -/
def fnameLineToArray : Option (List String) → List String
  | none => []
  | some lines => lines.map pyRstrip

/-- Function `check_file_list_exists` of fsqlexec.py over an abstract
existence predicate: the first path that does not exist raises `IOError`
(modelled as the error value); otherwise the check passes. -/
def checkFileListExists (exists? : String → Bool) : List String → Except String Unit
  | [] => .ok ()
  | f :: rest =>
    if exists? f then checkFileListExists exists? rest else .error f

/-- Function `create_sql_files` of fsqlexec.py: build the exclude list,
filter it out of the include list (preserving order), and only then run
the existence check on the surviving paths. -/
def createSqlFiles (exists? : String → Bool) (includeFile : List String)
    (excludeFile : Option (List String)) : Except String (List String) :=
  let excludes := fnameLineToArray excludeFile
  let ret := includeFile.filter (fun fname => !(excludes.contains fname))
  match checkFileListExists exists? ret with
  | .ok _ => .ok ret
  | .error e => .error e

/-- Projection of a trace to the executed (file, statement) pairs, in
execution order. -/
def execStmtsOf (evs : List Event) : List (String × String) :=
  evs.filterMap (fun e =>
    match e with
    | Event.execStmt f s => some (f, s)
    | _ => none)

/-- Heap of Python list objects, for the `copy.copy` aliasing behaviour:
cells are list values, references are indices. -/
structure Heap where
  cells : List (List String)

/-- Allocate a fresh list object holding `v`; returns the new heap and the
fresh reference. -/
def Heap.alloc (h : Heap) (v : List String) : Heap × Nat :=
  (⟨h.cells ++ [v]⟩, h.cells.length)

/-- Dereference a list object. -/
def Heap.read (h : Heap) (r : Nat) : List String :=
  h.cells.getD r []

/-- Mutate a list object in place (models e.g. `lst.append(...)` or
`lst[0] = ...` replacing the cell's value). -/
def Heap.write (h : Heap) (r : Nat) (v : List String) : Heap :=
  ⟨h.cells.set r v⟩

/-- Python `copy.copy(xs)`: allocate a fresh list object with the same
elements as the one `r` refers to. -/
def pyCopy (h : Heap) (r : Nat) : Heap × Nat :=
  h.alloc (h.read r)

/-- The constructor line `self.__sql_files = copy.copy(sql_files)`:
returns the heap after construction and the reference stored in the
private attribute. -/
def initSqlFiles (h : Heap) (callerRef : Nat) : Heap × Nat :=
  pyCopy h callerRef

/-- The property `sql_files`: `return copy.copy(self.__sql_files)` —
returns the heap after the call and the reference handed to the caller. -/
def sqlFilesProperty (h : Heap) (internalRef : Nat) : Heap × Nat :=
  pyCopy h internalRef

/-- Concrete two-file read function used to instantiate the extraction
theorems on the scenario of the spec (file one holds two DDL statements,
file two only a comment). -/
def egReadFile : String → Option String
  | "a.sql" => some "CREATE TABLE test (id int);\nCREATE INDEX test_id_index ON test(id);"
  | "b.sql" => some "-- nothing here"
  | _ => none

/-- Concrete existence predicate on which only `gone.sql` is missing. -/
def egExists (f : String) : Bool := !(f = "gone.sql")

/-! Lemmas about the runner. -/

lemma runFiles_cons_stmt (failsOn : String → Bool) (fname sql : String)
    (cmds : List String) (rest : List (String × List String))
    (hf : failsOn sql = false) :
    runFiles failsOn ((fname, sql :: cmds) :: rest) =
      (Event.execStmt fname sql :: (runFiles failsOn ((fname, cmds) :: rest)).1,
       (runFiles failsOn ((fname, cmds) :: rest)).2) := by
  simp only [runFiles, runStmtsFile, hf]
  cases h : (runStmtsFile failsOn fname cmds).2 <;> simp [h]

lemma runFiles_eq_runFlat (failsOn : String → Bool) :
    ∀ pairs, runFiles failsOn pairs = runFlat failsOn (flattenPairs pairs) := by
  intro pairs
  induction pairs with
  | nil => rfl
  | cons hd rest ih =>
    obtain ⟨fname, cmds⟩ := hd
    induction cmds with
    | nil =>
      simpa [runFiles, runStmtsFile, flattenPairs] using ih
    | cons sql cmds ih2 =>
      by_cases hf : failsOn sql = true
      · simp [runFiles, runStmtsFile, hf, flattenPairs, runFlat]
      · rw [Bool.not_eq_true] at hf
        rw [runFiles_cons_stmt failsOn fname sql cmds rest hf, ih2]
        have hflat : flattenPairs ((fname, sql :: cmds) :: rest) =
            (fname, sql) :: flattenPairs ((fname, cmds) :: rest) := by
          simp [flattenPairs]
        rw [hflat]
        simp [runFlat, hf]

lemma runFlat_res (failsOn : String → Bool) :
    ∀ l, (runFlat failsOn l).2 = l.find? (fun p => failsOn p.2) := by
  intro l
  induction l with
  | nil => rfl
  | cons p rest ih =>
    obtain ⟨f, s⟩ := p
    by_cases hf : failsOn s = true
    · simp [runFlat, hf, List.find?]
    · rw [Bool.not_eq_true] at hf
      simp [runFlat, hf, List.find?, ih]

lemma runFlat_trace (failsOn : String → Bool) :
    ∀ l : List (String × String),
      (runFlat failsOn l).1 =
        ((l.takeWhile (fun p => !(failsOn p.2))).map (fun p => Event.execStmt p.1 p.2))
          ++ (match l.find? (fun p => failsOn p.2) with
              | none => []
              | some (f, s) => [Event.execStmt f s]) := by
  intro l
  induction l with
  | nil => rfl
  | cons p rest ih =>
    obtain ⟨f, s⟩ := p
    by_cases hf : failsOn s = true
    · simp [runFlat, hf, List.find?, List.takeWhile]
    · rw [Bool.not_eq_true] at hf
      simp [runFlat, hf, List.find?, List.takeWhile, ih]

/-- Shared trace-shape helper: every event of the statement loops is an
`execStmt` event. -/
lemma runFlat_events (failsOn : String → Bool) :
    ∀ l e, e ∈ (runFlat failsOn l).1 → ∃ f s, e = Event.execStmt f s := by
  intro l
  induction l with
  | nil => intro e he; simp [runFlat] at he
  | cons p rest ih =>
    obtain ⟨f, s⟩ := p
    intro e he
    by_cases hf : failsOn s = true
    · simp [runFlat, hf] at he
      exact ⟨f, s, he⟩
    · rw [Bool.not_eq_true] at hf
      simp [runFlat, hf] at he
      rcases he with he | he
      · exact ⟨f, s, he⟩
      · exact ih e he

/-- Shared trace-shape helper: the trace of `exec` is the statement-loop
events wrapped by cursor acquisition in front and by the cleanup block
(`commit` then `closeCursor`) at the end when the cursor was acquired,
and it is just the cleanup `commit` when cursor acquisition failed. -/
lemma execModel_trace (db : DBModel) (pairs : List (String × List String)) :
    (execModel db pairs).1 =
      if db.cursorOk then
        Event.getCursor :: (runFlat db.failsOn (flattenPairs pairs)).1
          ++ [Event.commit, Event.closeCursor]
      else [Event.commit] := by
  by_cases hc : db.cursorOk = true
  · simp only [execModel, hc, if_true, runFiles_eq_runFlat]
    cases h : (runFlat db.failsOn (flattenPairs pairs)).2 with
    | none => simp [h]
    | some p => obtain ⟨f, s⟩ := p; simp [h]
  · rw [Bool.not_eq_true] at hc
    simp [execModel, hc]

/-- Shared helper: the outcome of `exec` when the cursor is acquired is
determined by the first failing statement of the flattened sequence. -/
lemma execModel_res (db : DBModel) (pairs : List (String × List String))
    (hc : db.cursorOk = true) :
    (execModel db pairs).2 =
      match (flattenPairs pairs).find? (fun p => db.failsOn p.2) with
      | none => Outcome.ok
      | some (f, s) => Outcome.stmtError f s := by
  simp only [execModel, hc, if_true, runFiles_eq_runFlat, runFlat_res]
  cases h : (flattenPairs pairs).find? (fun p => db.failsOn p.2) with
  | none => simp [h]
  | some p => obtain ⟨f, s⟩ := p; simp [h]

/-- C1: on every exit path of `exec` — success, statement failure, or
cursor-acquisition failure — the cleanup block calls `commit()` on the
connection before the cursor-close step, and `rollback()` is never called:
the trace always ends with `commit` immediately followed by `closeCursor`
when the cursor was acquired, and with `commit` alone when acquisition
failed (the subsequent `cur.close()` on `None` never reaches a cursor),
and `rollback` appears nowhere in the trace. -/
theorem exec_commit_always_never_rollback (db : DBModel)
    (pairs : List (String × List String)) :
    Event.rollback ∉ (execModel db pairs).1 ∧
    ∃ pre, (execModel db pairs).1 =
      pre ++ (if db.cursorOk then [Event.commit, Event.closeCursor]
              else [Event.commit]) := by
  rw [execModel_trace]
  by_cases hc : db.cursorOk = true
  · simp only [hc, if_true]
    refine ⟨?_, Event.getCursor :: (runFlat db.failsOn (flattenPairs pairs)).1, by simp⟩
    intro hmem
    rcases List.mem_cons.mp hmem with h | h
    · exact absurd h (by simp)
    · rcases List.mem_append.mp h with h2 | h2
      · obtain ⟨f, s, hfs⟩ := runFlat_events db.failsOn _ _ h2
        exact absurd hfs (by simp)
      · simp at h2
  · rw [Bool.not_eq_true] at hc
    simp [hc]

/-- Shared helper: the executed-statement projection distributes over
trace concatenation. -/
lemma execStmtsOf_append (l1 l2 : List Event) :
    execStmtsOf (l1 ++ l2) = execStmtsOf l1 ++ execStmtsOf l2 := by
  simp [execStmtsOf, List.filterMap_append]

/-- Shared helper: the executed-statement projection of a pure statement
trace recovers the (file, statement) pairs. -/
lemma execStmtsOf_map_stmt (l : List (String × String)) :
    execStmtsOf (l.map (fun p => Event.execStmt p.1 p.2)) = l := by
  induction l with
  | nil => rfl
  | cons p rest ih => simpa [execStmtsOf, List.filterMap_cons] using ih

/-- C2: when the cursor is acquired and some statement of the flattened
(file-order, then extraction-order) sequence fails, `exec` executes
exactly the statements up to and including the first failing one — so no
statement after the failure point, in the same file or any later file, is
ever executed — and the propagated error identifies the originating file
and the exact statement text. -/
theorem exec_aborts_at_first_failure (db : DBModel)
    (pairs : List (String × List String)) (f s : String)
    (hc : db.cursorOk = true)
    (hfind : (flattenPairs pairs).find? (fun p => db.failsOn p.2) = some (f, s)) :
    (execModel db pairs).2 = Outcome.stmtError f s ∧
    execStmtsOf (execModel db pairs).1 =
      ((flattenPairs pairs).takeWhile (fun p => !(db.failsOn p.2))) ++ [(f, s)] := by
  constructor
  · rw [execModel_res db pairs hc, hfind]
  · have htr : (runFlat db.failsOn (flattenPairs pairs)).1 =
        (List.map (fun p => Event.execStmt p.1 p.2)
          ((flattenPairs pairs).takeWhile (fun p => !(db.failsOn p.2))))
          ++ [Event.execStmt f s] := by
      rw [runFlat_trace, hfind]
    have hg : ∀ l : List Event,
        execStmtsOf (Event.getCursor :: l) = execStmtsOf l := fun _ => rfl
    rw [execModel_trace]
    simp only [hc, if_true]
    rw [htr, execStmtsOf_append, hg, execStmtsOf_append, execStmtsOf_map_stmt]
    simp [execStmtsOf]

/-- C5 (amended): on every exit path on which the cursor was actually
acquired — full success or a statement failure — the cleanup closes the
cursor (the trace ends with the cleanup `commit` followed by
`closeCursor`).  On the cursor-acquisition-failure path no cursor exists
and no close happens (see the counterexample theorem). -/
theorem exec_closes_cursor_when_acquired (db : DBModel)
    (pairs : List (String × List String)) (hc : db.cursorOk = true) :
    ∃ pre, (execModel db pairs).1 = pre ++ [Event.commit, Event.closeCursor] := by
  rw [execModel_trace]
  simp only [hc, if_true]
  exact ⟨Event.getCursor :: (runFlat db.failsOn (flattenPairs pairs)).1, by simp⟩

/-- C5 (counterexample): when cursor acquisition fails, no cursor close
ever happens on that exit path — instead the cleanup's `cur.close()` is
evaluated with `cur = None` and the run propagates the resulting
`AttributeError`.  This refutes the claim that the execution context is
released on every exit path including the acquisition-failure path. -/
theorem exec_cursor_failure_no_close :
    Event.closeCursor ∉
      (execModel ⟨false, fun _ => false⟩ [("a.sql", ["SELECT 1"])]).1 ∧
    (execModel ⟨false, fun _ => false⟩ [("a.sql", ["SELECT 1"])]).2 =
      Outcome.attributeError := by
  exact ⟨by decide, rfl⟩

/-- Witness for the amended C5 theorem at a concrete input. -/
theorem exec_closes_cursor_when_acquired_witness :
    ((⟨true, fun _ => false⟩ : DBModel).cursorOk = true) ∧
    ∃ pre, (execModel ⟨true, fun _ => false⟩ [("a.sql", ["SELECT 1"])]).1 =
      pre ++ [Event.commit, Event.closeCursor] :=
  ⟨rfl, exec_closes_cursor_when_acquired ⟨true, fun _ => false⟩
    [("a.sql", ["SELECT 1"])] rfl⟩

/-- Witness for the C2 theorem: two files, the second file's first
statement fails; the executed statements stop right there and the error
names file two and the failing text. -/
theorem exec_aborts_at_first_failure_witness :
    ((⟨true, fun s => s == "BAD"⟩ : DBModel).cursorOk = true) ∧
    ((flattenPairs [("one.sql", ["CREATE TABLE t (id int)"]),
        ("two.sql", ["BAD", "SELECT 2"])]).find?
      (fun p => (⟨true, fun s => s == "BAD"⟩ : DBModel).failsOn p.2) =
        some ("two.sql", "BAD")) ∧
    ((execModel ⟨true, fun s => s == "BAD"⟩
        [("one.sql", ["CREATE TABLE t (id int)"]),
         ("two.sql", ["BAD", "SELECT 2"])]).2 =
      Outcome.stmtError "two.sql" "BAD" ∧
     execStmtsOf (execModel ⟨true, fun s => s == "BAD"⟩
        [("one.sql", ["CREATE TABLE t (id int)"]),
         ("two.sql", ["BAD", "SELECT 2"])]).1 =
      ((flattenPairs [("one.sql", ["CREATE TABLE t (id int)"]),
          ("two.sql", ["BAD", "SELECT 2"])]).takeWhile
        (fun p => !((⟨true, fun s => s == "BAD"⟩ : DBModel).failsOn p.2)))
        ++ [("two.sql", "BAD")]) :=
  ⟨rfl, by decide,
    exec_aborts_at_first_failure ⟨true, fun s => s == "BAD"⟩
      [("one.sql", ["CREATE TABLE t (id int)"]), ("two.sql", ["BAD", "SELECT 2"])]
      "two.sql" "BAD" rfl (by decide)⟩

/-- C3: for every list of readable input files, `_read_sql` produces
exactly one inner statement list per input file, at that file's index in
the input order, equal to the extraction of that file's contents (so a
file with no matching statements contributes an empty inner list, never
omitted and never reordered). -/
theorem readSql_one_entry_per_file (readFile : String → Option String)
    (files : List String) (h : ∀ f ∈ files, readFile f ≠ none) :
    ∃ ls, readSql readFile files = .ok ls ∧ ls.length = files.length ∧
      ∀ (i : Nat) (hi : i < files.length) (hi2 : i < ls.length),
        some (ls.get ⟨i, hi2⟩) =
          (readFile (files.get ⟨i, hi⟩)).map extractStatements := by
  induction files with
  | nil =>
    refine ⟨[], rfl, rfl, ?_⟩
    intro i hi _
    exact absurd hi (by simp)
  | cons fname rest ih =>
    have h1 : readFile fname ≠ none := h fname (by simp)
    obtain ⟨c, hc⟩ : ∃ c, readFile fname = some c := by
      cases hr : readFile fname with
      | none => exact absurd hr h1
      | some c => exact ⟨c, rfl⟩
    obtain ⟨ls, hls, hlen, hget⟩ := ih (fun f hf => h f (by simp [hf]))
    refine ⟨extractStatements c :: ls, ?_, by simp [hlen], ?_⟩
    · simp [readSql, hc, hls]
    · intro i hi hi2
      cases i with
      | zero => simp [hc]
      | succ j =>
        simpa using hget j (by simpa using hi) (by simpa using hi2)

/-- Witness for the C3 theorem at a concrete two-file input; the second
file contains only a comment and contributes an empty inner list. -/
theorem readSql_one_entry_per_file_witness :
    (∀ f ∈ (["a.sql", "b.sql"] : List String), egReadFile f ≠ none) ∧
    (∃ ls, readSql egReadFile ["a.sql", "b.sql"] = .ok ls ∧
      ls.length = (["a.sql", "b.sql"] : List String).length ∧
      ∀ (i : Nat) (hi : i < (["a.sql", "b.sql"] : List String).length)
          (hi2 : i < ls.length),
        some (ls.get ⟨i, hi2⟩) =
          (egReadFile ((["a.sql", "b.sql"] : List String).get ⟨i, hi⟩)).map
            extractStatements) :=
  ⟨by decide, readSql_one_entry_per_file egReadFile ["a.sql", "b.sql"] (by decide)⟩

/-- C4 (code bug evaluation): the comment regex is compiled without
`re.MULTILINE`, so a comment line in the middle of a file is NOT removed:
on the contents `"SELECT a\n--x\nFROM t;"` the substitution leaves the
text unchanged and the comment line's text appears inside the extracted
statement. -/
theorem comment_line_kept_inside_statement :
    commentSub ("SELECT a\n--x\nFROM t;".toList) = "SELECT a\n--x\nFROM t;".toList ∧
    extractStatements "SELECT a\n--x\nFROM t;" = ["SELECT a --x FROM t"] := by
  exact ⟨by decide, by decide⟩

/-- C6 (code bug evaluation): the `SQLFileExecutor` class defines no
`close` method at all, although `fsqlexec.cmd` invokes `sqlexec.close()`
in its `finally` block and the spec documents a commit-then-close,
idempotent close operation. -/
theorem close_method_absent : "close" ∉ sqlFileExecutorMethods := by
  decide

/-! Lemmas about the extractor, towards C7 and C8. -/

lemma kwMatchCI_append : ∀ (ks cs m rest : List Char),
    kwMatchCI ks cs = some (m, rest) → cs = m ++ rest := by
  intro ks
  induction ks with
  | nil =>
    intro cs m rest h
    simp only [kwMatchCI, Option.some.injEq, Prod.mk.injEq] at h
    rw [← h.1, ← h.2]
    rfl
  | cons k ks ih =>
    intro cs m rest h
    cases cs with
    | nil => simp [kwMatchCI] at h
    | cons c cs' =>
      simp only [kwMatchCI] at h
      by_cases hk : c.toUpper = k
      · rw [if_pos hk] at h
        cases hm : kwMatchCI ks cs' with
        | none => rw [hm] at h; simp at h
        | some p =>
          obtain ⟨m', rest'⟩ := p
          rw [hm] at h
          simp only [Option.some.injEq, Prod.mk.injEq] at h
          rw [← h.1, ← h.2]
          have := ih cs' m' rest' hm
          simp [this]
      · rw [if_neg hk] at h
        simp at h

lemma kwMatchCI_map_toUpper : ∀ (ks cs m rest : List Char),
    kwMatchCI ks cs = some (m, rest) → m.map Char.toUpper = ks := by
  intro ks
  induction ks with
  | nil =>
    intro cs m rest h
    simp only [kwMatchCI, Option.some.injEq, Prod.mk.injEq] at h
    rw [← h.1]
    rfl
  | cons k ks ih =>
    intro cs m rest h
    cases cs with
    | nil => simp [kwMatchCI] at h
    | cons c cs' =>
      simp only [kwMatchCI] at h
      by_cases hk : c.toUpper = k
      · rw [if_pos hk] at h
        cases hm : kwMatchCI ks cs' with
        | none => rw [hm] at h; simp at h
        | some p =>
          obtain ⟨m', rest'⟩ := p
          rw [hm] at h
          simp only [Option.some.injEq, Prod.mk.injEq] at h
          rw [← h.1]
          simp [ih cs' m' rest' hm, hk]
      · rw [if_neg hk] at h
        simp at h

lemma matchKeywordAux_cases : ∀ (kws : List String) (cs m rest : List Char),
    matchKeywordAux kws cs = some (m, rest) →
    ∃ kw ∈ kws, kwMatchCI kw.toList cs = some (m, rest) := by
  intro kws
  induction kws with
  | nil => intro cs m rest h; simp [matchKeywordAux] at h
  | cons kw kws ih =>
    intro cs m rest h
    simp only [matchKeywordAux] at h
    cases hm : kwMatchCI kw.toList cs with
    | some p =>
      rw [hm] at h
      dsimp only at h
      rw [h] at hm
      exact ⟨kw, by simp, hm⟩
    | none =>
      rw [hm] at h
      dsimp only at h
      obtain ⟨kw', hmem, hkw⟩ := ih cs m rest h
      exact ⟨kw', by simp [hmem], hkw⟩

lemma sqlcommands_heads : ∀ kw ∈ SQLCOMMANDS,
    kw.toList.head? ∈
      ([some 'S', some 'I', some 'D', some 'U', some 'C', some 'A'] :
        List (Option Char)) := by
  decide

lemma matchKeyword_head (cs m rest : List Char)
    (h : matchKeyword cs = some (m, rest)) :
    ∃ c tl, m = c :: tl ∧
      c.toUpper ∈ (['S', 'I', 'D', 'U', 'C', 'A'] : List Char) := by
  obtain ⟨kw, hkw, hm⟩ := matchKeywordAux_cases SQLCOMMANDS cs m rest h
  have hmap := kwMatchCI_map_toUpper kw.toList cs m rest hm
  have hh := sqlcommands_heads kw hkw
  rw [← hmap] at hh
  cases m with
  | nil => simp at hh
  | cons c tl =>
    refine ⟨c, tl, rfl, ?_⟩
    simp only [List.map_cons, List.head?_cons] at hh
    simpa using hh

lemma splitAtSemi_semi : ∀ (cs m rest : List Char),
    splitAtSemi cs = some (m, rest) → ';' ∈ cs := by
  intro cs
  induction cs with
  | nil => intro m rest h; simp [splitAtSemi] at h
  | cons c cs ih =>
    intro m rest h
    by_cases hc : c = ';'
    · rw [hc]; simp
    · simp only [splitAtSemi, if_neg hc] at h
      cases hm : splitAtSemi cs with
      | none => rw [hm] at h; simp at h
      | some p =>
        obtain ⟨m', r'⟩ := p
        exact List.mem_cons_of_mem c (ih m' r' hm)

lemma tryMatch_semi (cs m rest : List Char) (h : tryMatch cs = some (m, rest)) :
    ';' ∈ cs := by
  unfold tryMatch at h
  cases hk : matchKeyword cs with
  | none => rw [hk] at h; simp at h
  | some p =>
    obtain ⟨kwm, kr⟩ := p
    rw [hk] at h
    dsimp only at h
    cases kr with
    | nil => simp at h
    | cons c rest₂ =>
      dsimp only at h
      by_cases hw : c = ' ' ∨ c = '\t'
      · have h1 : ';' ∈ rest₂ := by
          rw [if_pos hw] at h
          cases hs : splitAtSemi rest₂ with
          | none => rw [hs] at h; simp at h
          | some q =>
            obtain ⟨body, after⟩ := q
            exact splitAtSemi_semi rest₂ body after hs
        have h2 : cs = kwm ++ c :: rest₂ := by
          obtain ⟨kw, hkw, hmk⟩ :=
            matchKeywordAux_cases SQLCOMMANDS cs kwm (c :: rest₂) hk
          exact kwMatchCI_append kw.toList cs kwm (c :: rest₂) hmk
        rw [h2]
        simp [h1]
      · rw [if_neg hw] at h
        simp at h

lemma tryMatch_head (cs m rest : List Char) (h : tryMatch cs = some (m, rest)) :
    ∃ c tl, m = c :: tl ∧
      c.toUpper ∈ (['S', 'I', 'D', 'U', 'C', 'A'] : List Char) := by
  unfold tryMatch at h
  cases hk : matchKeyword cs with
  | none => rw [hk] at h; simp at h
  | some p =>
    obtain ⟨kwm, kr⟩ := p
    rw [hk] at h
    dsimp only at h
    obtain ⟨c0, tl0, rfl, hc0⟩ := matchKeyword_head cs kwm kr hk
    cases kr with
    | nil => simp at h
    | cons c rest₂ =>
      dsimp only at h
      by_cases hw : c = ' ' ∨ c = '\t'
      · rw [if_pos hw] at h
        cases hs : splitAtSemi rest₂ with
        | none => rw [hs] at h; simp at h
        | some q =>
          obtain ⟨body, after⟩ := q
          rw [hs] at h
          dsimp only at h
          simp only [Option.some.injEq, Prod.mk.injEq] at h
          refine ⟨c0, tl0 ++ c :: body, ?_, hc0⟩
          rw [← h.1]
          simp
      · rw [if_neg hw] at h
        simp at h

lemma mem_findallAux : ∀ (fuel : Nat) (cs m : List Char),
    m ∈ findallAux fuel cs → ∃ cs' rest, tryMatch cs' = some (m, rest) := by
  intro fuel
  induction fuel with
  | zero => intro cs m h; simp [findallAux] at h
  | succ n ih =>
    intro cs m h
    cases cs with
    | nil => simp [findallAux] at h
    | cons c cs' =>
      simp only [findallAux] at h
      cases ht : tryMatch (c :: cs') with
      | some p =>
        obtain ⟨m', rest'⟩ := p
        rw [ht] at h
        dsimp only at h
        rcases List.mem_cons.mp h with h1 | h2
        · rw [← h1] at ht
          exact ⟨c :: cs', rest', ht⟩
        · exact ih rest' m h2
      | none =>
        rw [ht] at h
        dsimp only at h
        exact ih cs' m h

lemma letter_head_props (c : Char)
    (h : c.toUpper ∈ (['S', 'I', 'D', 'U', 'C', 'A'] : List Char)) :
    c.isWhitespace = false ∧ c ≠ '\n' ∧ c ≠ ';' := by
  refine ⟨?_, ?_, ?_⟩
  · by_contra hw
    rw [Bool.not_eq_false] at hw
    have hcases : ((c = ' ' ∨ c = '\t') ∨ c = '\x0d') ∨ c = '\n' := by
      simpa [Char.isWhitespace] using hw
    rcases hcases with ((rfl | rfl) | rfl) | rfl <;> exact absurd h (by decide)
  · intro hEq
    rw [hEq] at h
    exact absurd h (by decide)
  · intro hEq
    rw [hEq] at h
    exact absurd h (by decide)

lemma dropWhile_concat_ne (p : Char → Bool) (c : Char) (hc : p c = false) :
    ∀ xs : List Char, ∃ ys, (xs ++ [c]).dropWhile p = ys ++ [c] := by
  intro xs
  induction xs with
  | nil => exact ⟨[], by simp [List.dropWhile_cons, hc]⟩
  | cons x xs ih =>
    by_cases hx : p x = true
    · obtain ⟨ys, hys⟩ := ih
      exact ⟨ys, by simp [List.dropWhile_cons, hx, hys]⟩
    · exact ⟨x :: xs, by simp [List.dropWhile_cons, hx]⟩

lemma pyStrip_head (c : Char) (tl : List Char) (hc : c.isWhitespace = false) :
    ∃ tl', pyStrip (c :: tl) = c :: tl' := by
  unfold pyStrip
  rw [List.dropWhile_cons, hc]
  simp only [Bool.false_eq_true, if_false]
  obtain ⟨ys, hys⟩ := dropWhile_concat_ne Char.isWhitespace c hc tl.reverse
  rw [List.reverse_cons, hys]
  exact ⟨ys.reverse, by simp⟩

lemma delfn_no_newline (cs : List Char) : '\n' ∉ delfn cs := by
  intro h
  simp only [delfn, List.mem_filter, List.mem_map] at h
  obtain ⟨⟨c, _, hc⟩, _⟩ := h
  by_cases hcn : c = '\n'
  · rw [if_pos hcn] at hc
    exact absurd hc (by decide)
  · rw [if_neg hcn] at hc
    exact hcn hc

lemma delfn_no_semi (cs : List Char) : ';' ∉ delfn cs := by
  intro h
  simp only [delfn, List.mem_filter] at h
  simpa using h.2

lemma delfn_cons_keep (c : Char) (tl : List Char) (hn : c ≠ '\n') (hs : c ≠ ';') :
    delfn (c :: tl) = c :: delfn tl := by
  simp [delfn, hn, hs]

lemma tryMatch_none_of_no_semi (cs : List Char) (h : ';' ∉ cs) :
    tryMatch cs = none := by
  cases ht : tryMatch cs with
  | none => rfl
  | some p =>
    obtain ⟨m, rest⟩ := p
    exact absurd (tryMatch_semi cs m rest ht) h

lemma findallAux_nil_of_no_semi : ∀ (fuel : Nat) (cs : List Char),
    ';' ∉ cs → findallAux fuel cs = [] := by
  intro fuel
  induction fuel with
  | zero => intro cs _; rfl
  | succ n ih =>
    intro cs h
    cases cs with
    | nil => rfl
    | cons c cs' =>
      simp only [findallAux]
      rw [tryMatch_none_of_no_semi _ h]
      exact ih cs' (fun hm => h (List.mem_cons_of_mem c hm))

lemma splitAtSemi_append_eq : ∀ (cs m rest : List Char),
    splitAtSemi cs = some (m, rest) → cs = m ++ rest := by
  intro cs
  induction cs with
  | nil => intro m rest h; simp [splitAtSemi] at h
  | cons c cs ih =>
    intro m rest h
    by_cases hc : c = ';'
    · simp only [splitAtSemi, if_pos hc, Option.some.injEq, Prod.mk.injEq] at h
      rw [← h.1, ← h.2]
      rfl
    · simp only [splitAtSemi, if_neg hc] at h
      cases hm : splitAtSemi cs with
      | none => rw [hm] at h; simp at h
      | some p =>
        obtain ⟨m', r'⟩ := p
        rw [hm] at h
        dsimp only at h
        simp only [Option.some.injEq, Prod.mk.injEq] at h
        rw [← h.1, ← h.2]
        simpa using ih m' r' hm

lemma splitAtSemi_some_of_semi : ∀ cs : List Char, ';' ∈ cs →
    ∃ m rest, splitAtSemi cs = some (m, rest) := by
  intro cs
  induction cs with
  | nil => intro h; simp at h
  | cons c cs ih =>
    intro h
    by_cases hc : c = ';'
    · exact ⟨[c], cs, by simp [splitAtSemi, hc]⟩
    · have hcs : ';' ∈ cs := by
        rcases List.mem_cons.mp h with h1 | h1
        · exact absurd h1.symm hc
        · exact h1
      obtain ⟨m, rest, hm⟩ := ih hcs
      exact ⟨c :: m, rest, by simp [splitAtSemi, if_neg hc, hm]⟩

lemma splitAtSemi_append_some : ∀ (cs m rest t : List Char),
    splitAtSemi cs = some (m, rest) →
    splitAtSemi (cs ++ t) = some (m, rest ++ t) := by
  intro cs
  induction cs with
  | nil => intro m rest t h; simp [splitAtSemi] at h
  | cons c cs ih =>
    intro m rest t h
    by_cases hc : c = ';'
    · simp only [splitAtSemi, if_pos hc, Option.some.injEq, Prod.mk.injEq] at h
      simp only [List.cons_append, splitAtSemi, if_pos hc, List.append_eq,
        Option.some.injEq, Prod.mk.injEq]
      exact ⟨h.1, by rw [← h.2]⟩
    · simp only [splitAtSemi, if_neg hc] at h
      cases hm : splitAtSemi cs with
      | none => rw [hm] at h; simp at h
      | some p =>
        obtain ⟨m', r'⟩ := p
        rw [hm] at h
        dsimp only at h
        simp only [Option.some.injEq, Prod.mk.injEq] at h
        simp only [List.cons_append, splitAtSemi, if_neg hc, List.append_eq,
          ih m' r' t hm, Option.some.injEq, Prod.mk.injEq]
        exact ⟨by rw [← h.1], by rw [← h.2]⟩

lemma kwMatchCI_extend_some : ∀ (ks cs m r t : List Char),
    kwMatchCI ks cs = some (m, r) →
    kwMatchCI ks (cs ++ t) = some (m, r ++ t) := by
  intro ks
  induction ks with
  | nil =>
    intro cs m r t h
    simp only [kwMatchCI, Option.some.injEq, Prod.mk.injEq] at h
    rw [← h.1, ← h.2]
    rfl
  | cons k ks ih =>
    intro cs m r t h
    cases cs with
    | nil => simp [kwMatchCI] at h
    | cons c cs' =>
      simp only [kwMatchCI] at h
      simp only [List.cons_append, kwMatchCI, List.append_eq]
      by_cases hk : c.toUpper = k
      · rw [if_pos hk] at h ⊢
        cases hm : kwMatchCI ks cs' with
        | none => rw [hm] at h; simp at h
        | some p =>
          obtain ⟨m', r'⟩ := p
          rw [hm] at h
          dsimp only at h
          simp only [Option.some.injEq, Prod.mk.injEq] at h
          rw [ih cs' m' r' t hm]
          dsimp only
          simp only [Option.some.injEq, Prod.mk.injEq]
          exact ⟨by rw [← h.1], by rw [← h.2]⟩
      · rw [if_neg hk] at h
        simp at h

lemma kwMatchCI_extended_cases : ∀ (ks cs t m r : List Char),
    kwMatchCI ks (cs ++ t) = some (m, r) →
    (∃ r', kwMatchCI ks cs = some (m, r') ∧ r = r' ++ t) ∨
      (∀ x ∈ cs, x.toUpper ∈ ks) := by
  intro ks
  induction ks with
  | nil =>
    intro cs t m r h
    simp only [kwMatchCI, Option.some.injEq, Prod.mk.injEq] at h
    left
    refine ⟨cs, ?_, by rw [← h.2]⟩
    rw [← h.1]
    rfl
  | cons k ks ih =>
    intro cs t m r h
    cases cs with
    | nil =>
      right
      intro x hx
      simp at hx
    | cons c cs' =>
      simp only [List.cons_append, kwMatchCI, List.append_eq] at h
      by_cases hk : c.toUpper = k
      · rw [if_pos hk] at h
        cases hm : kwMatchCI ks (cs' ++ t) with
        | none => rw [hm] at h; simp at h
        | some p =>
          obtain ⟨m', r'⟩ := p
          rw [hm] at h
          dsimp only at h
          simp only [Option.some.injEq, Prod.mk.injEq] at h
          rcases ih cs' t m' r' hm with ⟨r₁, hr₁, hre⟩ | hall
          · left
            refine ⟨r₁, ?_, ?_⟩
            · simp only [kwMatchCI, if_pos hk, hr₁]
              simp only [Option.some.injEq, Prod.mk.injEq, and_true]
              exact h.1
            · rw [← h.2, hre]
          · right
            intro x hx
            rcases List.mem_cons.mp hx with h1 | h1
            · rw [h1, hk]
              exact List.mem_cons_self k ks
            · exact List.mem_cons_of_mem k (hall x h1)
      · rw [if_neg hk] at h
        simp at h

lemma matchKeywordAux_extend_some : ∀ (kws : List String) (cs m r : List Char),
    matchKeywordAux kws cs = some (m, r) →
    (∀ kw ∈ kws, ¬ (∀ x ∈ cs, x.toUpper ∈ kw.toList)) →
    ∀ t, matchKeywordAux kws (cs ++ t) = some (m, r ++ t) := by
  intro kws
  induction kws with
  | nil => intro cs m r h _ t; simp [matchKeywordAux] at h
  | cons kw kws ih =>
    intro cs m r h hside t
    simp only [matchKeywordAux] at h ⊢
    cases hm : kwMatchCI kw.toList cs with
    | some p =>
      rw [hm] at h
      dsimp only at h
      rw [h] at hm
      rw [kwMatchCI_extend_some kw.toList cs m r t hm]
    | none =>
      rw [hm] at h
      dsimp only at h
      have hm2 : kwMatchCI kw.toList (cs ++ t) = none := by
        cases hm3 : kwMatchCI kw.toList (cs ++ t) with
        | none => rfl
        | some q =>
          obtain ⟨m₂, r₂⟩ := q
          rcases kwMatchCI_extended_cases kw.toList cs t m₂ r₂ hm3 with
            ⟨r₁, hr₁, _⟩ | hall
          · rw [hm] at hr₁
            exact absurd hr₁ (by simp)
          · exact absurd hall (hside kw (by simp))
      rw [hm2]
      exact ih cs m r h (fun kw2 hk2 => hside kw2 (by simp [hk2])) t

lemma matchKeywordAux_extended_cases : ∀ (kws : List String) (cs t m r : List Char),
    matchKeywordAux kws (cs ++ t) = some (m, r) →
    (∃ r', matchKeywordAux kws cs = some (m, r') ∧ r = r' ++ t) ∨
      (∃ kw ∈ kws, ∀ x ∈ cs, x.toUpper ∈ kw.toList) := by
  intro kws
  induction kws with
  | nil => intro cs t m r h; simp [matchKeywordAux] at h
  | cons kw kws ih =>
    intro cs t m r h
    simp only [matchKeywordAux] at h
    cases hm : kwMatchCI kw.toList (cs ++ t) with
    | some p =>
      rw [hm] at h
      dsimp only at h
      rw [h] at hm
      rcases kwMatchCI_extended_cases kw.toList cs t m r hm with ⟨r₁, hr₁, hre⟩ | hall
      · left
        exact ⟨r₁, by simp only [matchKeywordAux, hr₁], hre⟩
      · right
        exact ⟨kw, by simp, hall⟩
    | none =>
      rw [hm] at h
      dsimp only at h
      have hm0 : kwMatchCI kw.toList cs = none := by
        cases hm1 : kwMatchCI kw.toList cs with
        | none => rfl
        | some q =>
          obtain ⟨m₁, r₁⟩ := q
          have := kwMatchCI_extend_some kw.toList cs m₁ r₁ t hm1
          rw [hm] at this
          exact absurd this (by simp)
      rcases ih cs t m r h with ⟨r₁, hr₁, hre⟩ | ⟨kw2, hk2, hall⟩
      · left
        refine ⟨r₁, ?_, hre⟩
        simp only [matchKeywordAux, hm0]
        exact hr₁
      · right
        exact ⟨kw2, by simp [hk2], hall⟩

lemma sqlcommands_chars : ∀ kw ∈ SQLCOMMANDS,
    ' ' ∉ kw.toList ∧ '\t' ∉ kw.toList ∧ ';' ∉ kw.toList := by
  decide

lemma tryMatch_append_eq (cs m r : List Char) (h : tryMatch cs = some (m, r)) :
    cs = m ++ r := by
  unfold tryMatch at h
  cases hk : matchKeyword cs with
  | none => rw [hk] at h; simp at h
  | some p =>
    obtain ⟨kwm, kr⟩ := p
    rw [hk] at h
    dsimp only at h
    cases kr with
    | nil => simp at h
    | cons c rest₂ =>
      dsimp only at h
      by_cases hw : c = ' ' ∨ c = '\t'
      · rw [if_pos hw] at h
        cases hs : splitAtSemi rest₂ with
        | none => rw [hs] at h; simp at h
        | some q =>
          obtain ⟨body, after⟩ := q
          rw [hs] at h
          dsimp only at h
          simp only [Option.some.injEq, Prod.mk.injEq] at h
          have hcs : cs = kwm ++ c :: rest₂ := by
            obtain ⟨kw, hkw, hmk⟩ :=
              matchKeywordAux_cases SQLCOMMANDS cs kwm (c :: rest₂) hk
            exact kwMatchCI_append kw.toList cs kwm (c :: rest₂) hmk
          have hr2 : rest₂ = body ++ after := splitAtSemi_append_eq rest₂ body after hs
          rw [hcs, hr2, ← h.1, ← h.2]
          simp
      · rw [if_neg hw] at h
        simp at h

/-- Shared helper: a successful head match of the statement regex is
preserved when any text is appended after the input: the ws character
inside the match rules out a partial keyword spanning into the appended
text. -/
lemma tryMatch_extend_some (cs m r t : List Char)
    (h : tryMatch cs = some (m, r)) :
    tryMatch (cs ++ t) = some (m, r ++ t) := by
  unfold tryMatch at h ⊢
  cases hk : matchKeyword cs with
  | none => rw [hk] at h; simp at h
  | some p =>
    obtain ⟨kwm, kr⟩ := p
    rw [hk] at h
    dsimp only at h
    cases kr with
    | nil => simp at h
    | cons c rest₂ =>
      dsimp only at h
      by_cases hw : c = ' ' ∨ c = '\t'
      · rw [if_pos hw] at h
        cases hs : splitAtSemi rest₂ with
        | none => rw [hs] at h; simp at h
        | some q =>
          obtain ⟨body, after⟩ := q
          rw [hs] at h
          dsimp only at h
          simp only [Option.some.injEq, Prod.mk.injEq] at h
          have hcs : cs = kwm ++ c :: rest₂ := by
            obtain ⟨kw, hkw, hmk⟩ :=
              matchKeywordAux_cases SQLCOMMANDS cs kwm (c :: rest₂) hk
            exact kwMatchCI_append kw.toList cs kwm (c :: rest₂) hmk
          have hside : ∀ kw ∈ SQLCOMMANDS, ¬ (∀ x ∈ cs, x.toUpper ∈ kw.toList) := by
            intro kw hkw hall
            have hcmem : c ∈ cs := by rw [hcs]; simp
            have hmem := hall c hcmem
            obtain ⟨h1, h2, _⟩ := sqlcommands_chars kw hkw
            rcases hw with hsp | htb
            · rw [hsp] at hmem
              rw [show (' ' : Char).toUpper = ' ' from by decide] at hmem
              exact h1 hmem
            · rw [htb] at hmem
              rw [show ('\t' : Char).toUpper = '\t' from by decide] at hmem
              exact h2 hmem
          have hext := matchKeywordAux_extend_some SQLCOMMANDS cs kwm (c :: rest₂)
            hk hside t
          have hext2 : matchKeyword (cs ++ t) = some (kwm, (c :: rest₂) ++ t) := hext
          have hsp2 := splitAtSemi_append_some rest₂ body after t hs
          simp only [hext2, List.cons_append]
          rw [if_pos hw]
          simp only [hsp2, Option.some.injEq, Prod.mk.injEq]
          exact ⟨h.1, by rw [← h.2]⟩
      · rw [if_neg hw] at h
        simp at h

/-- Shared helper: every match of the statement regex on input with a
terminator-free tail appended lies entirely inside the original input:
the match needs a `;`, and the tail has none. -/
lemma tryMatch_extended_cases (cs t m r : List Char) (ht : ';' ∉ t)
    (h : tryMatch (cs ++ t) = some (m, r)) :
    ∃ r', tryMatch cs = some (m, r') ∧ r = r' ++ t := by
  unfold tryMatch at h
  cases hk : matchKeyword (cs ++ t) with
  | none => rw [hk] at h; simp at h
  | some p =>
    obtain ⟨kwm, kr⟩ := p
    rw [hk] at h
    dsimp only at h
    cases kr with
    | nil => simp at h
    | cons c rest₂ =>
      dsimp only at h
      by_cases hw : c = ' ' ∨ c = '\t'
      · rw [if_pos hw] at h
        cases hs : splitAtSemi rest₂ with
        | none => rw [hs] at h; simp at h
        | some q =>
          obtain ⟨body, after⟩ := q
          rw [hs] at h
          dsimp only at h
          simp only [Option.some.injEq, Prod.mk.injEq] at h
          have hsemi := splitAtSemi_semi rest₂ body after hs
          have hcst : cs ++ t = kwm ++ c :: rest₂ := by
            obtain ⟨kw', hkw', hmk⟩ :=
              matchKeywordAux_cases SQLCOMMANDS (cs ++ t) kwm (c :: rest₂) hk
            exact kwMatchCI_append kw'.toList (cs ++ t) kwm (c :: rest₂) hmk
          rcases matchKeywordAux_extended_cases SQLCOMMANDS cs t kwm (c :: rest₂) hk
            with ⟨r₁, hr₁, hre⟩ | ⟨kw, hkw, hall⟩
          · cases r₁ with
            | nil =>
              exfalso
              apply ht
              have htt : c :: rest₂ = t := by simpa using hre
              rw [← htt]
              exact List.mem_cons_of_mem c hsemi
            | cons c₁ r₂ =>
              have hre2 : c = c₁ ∧ rest₂ = r₂ ++ t := by simpa using hre
              have hsr : ';' ∈ r₂ := by
                rw [hre2.2] at hsemi
                rcases List.mem_append.mp hsemi with h1 | h1
                · exact h1
                · exact absurd h1 ht
              obtain ⟨m₀, r₀, hm₀⟩ := splitAtSemi_some_of_semi r₂ hsr
              have happ := splitAtSemi_append_some r₂ m₀ r₀ t hm₀
              rw [← hre2.2] at happ
              rw [hs] at happ
              simp only [Option.some.injEq, Prod.mk.injEq] at happ
              refine ⟨r₀, ?_, ?_⟩
              · have hmk : matchKeyword cs = some (kwm, c₁ :: r₂) := hr₁
                unfold tryMatch
                simp only [hmk]
                rw [if_pos (hre2.1 ▸ hw)]
                simp only [hm₀, Option.some.injEq, Prod.mk.injEq, and_true]
                rw [← h.1, hre2.1, happ.1]
              · rw [← h.2, happ.2]
          · exfalso
            have hmem : (';' : Char) ∈ cs ++ t := by
              rw [hcst]
              simp [hsemi]
            rcases List.mem_append.mp hmem with h1 | h1
            · have hup := hall ';' h1
              obtain ⟨_, _, h3⟩ := sqlcommands_chars kw hkw
              rw [show (';' : Char).toUpper = ';' from by decide] at hup
              exact h3 hup
            · exact ht h1
      · rw [if_neg hw] at h
        simp at h

lemma tryMatch_ne_nil (cs m r : List Char) (h : tryMatch cs = some (m, r)) :
    m ≠ [] := by
  obtain ⟨c0, tl0, rfl, _⟩ := tryMatch_head cs m r h
  simp

lemma tryMatch_rest_le (cs' : List Char) (c : Char) (m rest : List Char)
    (h : tryMatch (c :: cs') = some (m, rest)) : rest.length ≤ cs'.length := by
  have hmr := tryMatch_append_eq (c :: cs') m rest h
  have hlen := congrArg List.length hmr
  simp only [List.length_cons, List.length_append] at hlen
  cases m with
  | nil => exact absurd rfl (tryMatch_ne_nil _ _ _ h)
  | cons a as =>
    simp only [List.length_cons] at hlen
    omega

lemma findallAux_fuel : ∀ (fuel : Nat) (cs : List Char), cs.length ≤ fuel →
    findallAux fuel cs = findallAux cs.length cs := by
  intro fuel
  induction fuel using Nat.strong_induction_on with
  | _ fuel ih =>
    intro cs hlen
    cases fuel with
    | zero =>
      cases cs with
      | nil => rfl
      | cons c cs' => simp at hlen
    | succ n =>
      cases cs with
      | nil => rfl
      | cons c cs' =>
        have hlen1 : cs'.length ≤ n := by simpa using hlen
        cases ht : tryMatch (c :: cs') with
        | some p =>
          obtain ⟨m, rest⟩ := p
          have hrlen : rest.length ≤ cs'.length := tryMatch_rest_le cs' c m rest ht
          simp only [List.length_cons, findallAux, ht]
          rw [ih n (Nat.lt_succ_self n) rest (le_trans hrlen hlen1)]
          rw [ih cs'.length (Nat.lt_succ_of_le hlen1) rest hrlen]
        | none =>
          simp only [List.length_cons, findallAux, ht]
          rw [ih n (Nat.lt_succ_self n) cs' hlen1]

lemma findall_cons_some (c : Char) (cs' m rest : List Char)
    (h : tryMatch (c :: cs') = some (m, rest)) :
    findall (c :: cs') = m :: findall rest := by
  have hrlen : rest.length ≤ cs'.length := tryMatch_rest_le cs' c m rest h
  rw [findall]
  simp only [List.length_cons, findallAux, h]
  rw [findallAux_fuel cs'.length rest hrlen]
  rfl

lemma findall_cons_none (c : Char) (cs' : List Char)
    (h : tryMatch (c :: cs') = none) :
    findall (c :: cs') = findall cs' := by
  rw [findall]
  simp only [List.length_cons, findallAux, h]
  rfl

lemma findall_append_no_semi (t : List Char) (ht : ';' ∉ t) :
    ∀ (n : Nat) (cs : List Char), cs.length ≤ n →
      findall (cs ++ t) = findall cs := by
  intro n
  induction n with
  | zero =>
    intro cs hlen
    have hnil : cs = [] := List.eq_nil_of_length_eq_zero (Nat.le_zero.mp hlen)
    rw [hnil]
    simp only [List.nil_append]
    rw [findall, findallAux_nil_of_no_semi _ _ ht]
    rfl
  | succ n ih =>
    intro cs hlen
    cases cs with
    | nil =>
      simp only [List.nil_append]
      rw [findall, findallAux_nil_of_no_semi _ _ ht]
      rfl
    | cons c cs' =>
      have hlen1 : cs'.length ≤ n := by simpa using hlen
      cases ht2 : tryMatch (c :: cs') with
      | some p =>
        obtain ⟨m, rest⟩ := p
        have hrlen : rest.length ≤ cs'.length := tryMatch_rest_le cs' c m rest ht2
        have hext := tryMatch_extend_some (c :: cs') m rest t ht2
        have hcc : (c :: cs') ++ t = c :: (cs' ++ t) := rfl
        rw [hcc] at hext ⊢
        rw [findall_cons_some c (cs' ++ t) m (rest ++ t) hext]
        rw [findall_cons_some c cs' m rest ht2]
        rw [ih rest (le_trans hrlen hlen1)]
      | none =>
        have hnone2 : tryMatch ((c :: cs') ++ t) = none := by
          cases ht3 : tryMatch ((c :: cs') ++ t) with
          | none => rfl
          | some p =>
            obtain ⟨m, r⟩ := p
            obtain ⟨r', hr', _⟩ := tryMatch_extended_cases (c :: cs') t m r ht ht3
            rw [ht2] at hr'
            exact absurd hr' (by simp)
        have hcc : (c :: cs') ++ t = c :: (cs' ++ t) := rfl
        rw [hcc] at hnone2
        rw [hcc, findall_cons_none c (cs' ++ t) hnone2,
          findall_cons_none c cs' ht2]
        exact ih cs' hlen1

/-- C7 (counterexample): the clean-up strips whitespace BEFORE removing
the terminator, so whitespace in front of the `;` survives as trailing
whitespace of the extracted statement: the claim that every statement is
trimmed of trailing whitespace fails on the contents `"SELECT 1 ;"`. -/
theorem statement_keeps_trailing_space :
    extractStatements "SELECT 1 ;" = ["SELECT 1 "] ∧
    "SELECT 1 ".toList.getLast? = some ' ' := by
  exact ⟨by decide, by decide⟩

/-- C7 (amended): every extracted statement contains no newline character
(each newline of the matched text was replaced by a single space) and no
terminator character `;` anywhere, and carries no leading whitespace; it
may however end in whitespace, because the `strip` happens before the
terminator removal (see the counterexample theorem). -/
theorem extract_statements_normalized (contents : String) (s : String)
    (hs : s ∈ extractStatements contents) :
    '\n' ∉ s.toList ∧ ';' ∉ s.toList ∧
      ∀ c, s.toList.head? = some c → c.isWhitespace = false := by
  obtain ⟨m, hm, rfl⟩ := List.mem_map.mp hs
  have htl : (String.mk (delfn (pyStrip m))).toList = delfn (pyStrip m) := rfl
  rw [htl]
  refine ⟨delfn_no_newline _, delfn_no_semi _, ?_⟩
  intro c hc
  have hm' : m ∈ findallAux (commentSub contents.toList).length
      (commentSub contents.toList) := hm
  obtain ⟨cs', rest, ht⟩ := mem_findallAux _ _ _ hm'
  obtain ⟨c0, tl0, rfl, hc0⟩ := tryMatch_head cs' _ rest ht
  obtain ⟨hws, hn, hsemi⟩ := letter_head_props c0 hc0
  obtain ⟨tl', hstrip⟩ := pyStrip_head c0 tl0 hws
  rw [hstrip, delfn_cons_keep c0 tl' hn hsemi] at hc
  simp only [List.head?_cons, Option.some.injEq] at hc
  rw [← hc]
  exact hws

/-- Witness for the amended C7 theorem: a two-line statement comes out as
one single-line string with no newline, no terminator, and a
non-whitespace first character. -/
theorem extract_statements_normalized_witness :
    ("SELECT a FROM t" ∈ extractStatements "SELECT a\nFROM t;") ∧
    ('\n' ∉ "SELECT a FROM t".toList ∧ ';' ∉ "SELECT a FROM t".toList ∧
      ∀ c, "SELECT a FROM t".toList.head? = some c → c.isWhitespace = false) :=
  ⟨by decide,
    extract_statements_normalized "SELECT a\nFROM t;" "SELECT a FROM t" (by decide)⟩

/-- C8: a keyword occurrence that is not followed by a terminator `;`
anywhere later in the comment-substituted contents yields no Statement and
no error.  Any such occurrence lies after the last `;` of the contents,
i.e. inside a terminator-free suffix: split the contents at or before the
occurrence so that the suffix holds no `;`.  Then the matches — and hence
the extracted Statements — of the whole contents are exactly those of the
part before the suffix: the dangling text, the occurrence included, is
silently dropped, and extraction (a total function) raises no error.  This
covers files with earlier terminated statements, such as
`"SELECT a; SELECT b"` with `pre = "SELECT a;"`. -/
theorem dangling_occurrence_yields_no_statement (contents : String)
    (pre suffix : List Char)
    (hsplit : commentSub contents.toList = pre ++ suffix)
    (h : ';' ∉ suffix) :
    extractStatements contents =
      (findall pre).map (fun m => String.mk (delfn (pyStrip m))) ∧
    findall (pre ++ suffix) = findall pre := by
  have heq : findall (pre ++ suffix) = findall pre :=
    findall_append_no_semi suffix h pre.length pre le_rfl
  refine ⟨?_, heq⟩
  unfold extractStatements
  rw [hsplit, heq]

/-- Witness for the C8 theorem on a file whose dangling keyword occurrence
follows a terminated statement: the second SELECT has no later terminator
and yields nothing. -/
theorem dangling_occurrence_yields_no_statement_witness :
    (commentSub "SELECT a; SELECT b".toList =
      "SELECT a;".toList ++ " SELECT b".toList) ∧
    (';' ∉ " SELECT b".toList) ∧
    (extractStatements "SELECT a; SELECT b" =
      (findall "SELECT a;".toList).map (fun m => String.mk (delfn (pyStrip m))) ∧
     findall ("SELECT a;".toList ++ " SELECT b".toList) =
      findall "SELECT a;".toList) :=
  ⟨by decide, by decide,
    dangling_occurrence_yields_no_statement "SELECT a; SELECT b"
      ("SELECT a;".toList) (" SELECT b".toList) (by decide) (by decide)⟩

/-! Lemmas and theorems for create_sql_files (C9) and the copy semantics
of the constructor and the sql_files property (C10). -/

lemma checkFileListExists_ok (exists? : String → Bool) :
    ∀ l : List String, (∀ f ∈ l, exists? f = true) →
      checkFileListExists exists? l = .ok () := by
  intro l
  induction l with
  | nil => intro _; rfl
  | cons f rest ih =>
    intro h
    have hf : exists? f = true := h f (by simp)
    simp only [checkFileListExists, hf, if_true]
    exact ih (fun g hg => h g (by simp [hg]))

/-- C9: the exclude list is removed from the include list BEFORE any
existence check runs, so the check only ever inspects the surviving
paths: whenever every non-excluded include path exists — with no
assumption whatsoever on excluded paths, existing or not —
`create_sql_files` succeeds and returns the include list filtered by the
exclude list, in its original relative order.  In particular an excluded
path that does not exist on disk never raises an error. -/
theorem create_sql_files_excludes_before_check (exists? : String → Bool)
    (includeFile : List String) (excludeFile : Option (List String))
    (h : ∀ f ∈ includeFile,
      (fnameLineToArray excludeFile).contains f = false → exists? f = true) :
    createSqlFiles exists? includeFile excludeFile =
      .ok (includeFile.filter
        (fun f => !((fnameLineToArray excludeFile).contains f))) := by
  have hall : ∀ f ∈ includeFile.filter
      (fun f => !((fnameLineToArray excludeFile).contains f)), exists? f = true := by
    intro f hf
    rw [List.mem_filter] at hf
    exact h f hf.1 (by simpa using hf.2)
  simp only [createSqlFiles]
  rw [checkFileListExists_ok _ _ hall]

/-- Witness for the C9 theorem: the excluded path `gone.sql` does not
exist, yet the call succeeds and keeps the surviving paths in order. -/
theorem create_sql_files_excludes_before_check_witness :
    (∀ f ∈ (["a.sql", "gone.sql", "b.sql"] : List String),
      (fnameLineToArray (some ["gone.sql"])).contains f = false →
        egExists f = true) ∧
    createSqlFiles egExists ["a.sql", "gone.sql", "b.sql"] (some ["gone.sql"]) =
      .ok ((["a.sql", "gone.sql", "b.sql"] : List String).filter
        (fun f => !((fnameLineToArray (some ["gone.sql"])).contains f))) :=
  ⟨by decide,
    create_sql_files_excludes_before_check egExists
      ["a.sql", "gone.sql", "b.sql"] (some ["gone.sql"]) (by decide)⟩

lemma Heap.read_alloc (cells : List (List String)) (x : List String) :
    Heap.read ⟨cells ++ [x]⟩ cells.length = x := by
  simp [Heap.read, List.getD, List.getElem?_concat_length]

lemma Heap.read_append_lt (cells : List (List String)) (x : List String)
    (r : Nat) (hr : r < cells.length) :
    Heap.read ⟨cells ++ [x]⟩ r = Heap.read ⟨cells⟩ r := by
  simp [Heap.read, List.getD, List.getElem?_append_left hr]

lemma Heap.read_write_ne (cells : List (List String)) (r w : Nat)
    (v : List String) (hne : w ≠ r) :
    (Heap.write ⟨cells⟩ w v).read r = Heap.read ⟨cells⟩ r := by
  simp [Heap.read, Heap.write, List.getD, List.getElem?_set_ne hne]

/-- C10: the constructor stores a fresh copy of the caller's list and the
`sql_files` property hands out another fresh copy, so (1) the internal
reference holds the caller's elements, (2) mutating the caller's list
object after construction leaves the internal list unchanged, and
(3) mutating the list object returned by the property leaves the internal
list unchanged as well. -/
theorem sql_files_defensive_copies (h : Heap) (callerRef : Nat)
    (hr : callerRef < h.cells.length) (v w : List String) :
    ((initSqlFiles h callerRef).1).read (initSqlFiles h callerRef).2 =
      h.read callerRef ∧
    (((initSqlFiles h callerRef).1).write callerRef v).read
      (initSqlFiles h callerRef).2 = h.read callerRef ∧
    ((sqlFilesProperty (initSqlFiles h callerRef).1
        (initSqlFiles h callerRef).2).1.write
      (sqlFilesProperty (initSqlFiles h callerRef).1
        (initSqlFiles h callerRef).2).2 w).read
      (initSqlFiles h callerRef).2 = h.read callerRef := by
  obtain ⟨cells⟩ := h
  have h1 : ((initSqlFiles ⟨cells⟩ callerRef).1).read
      (initSqlFiles ⟨cells⟩ callerRef).2 = Heap.read ⟨cells⟩ callerRef :=
    Heap.read_alloc cells (Heap.read ⟨cells⟩ callerRef)
  refine ⟨h1, ?_, ?_⟩
  · have hne : callerRef ≠ cells.length := Nat.ne_of_lt hr
    calc (((initSqlFiles ⟨cells⟩ callerRef).1).write callerRef v).read
          (initSqlFiles ⟨cells⟩ callerRef).2
        = ((initSqlFiles ⟨cells⟩ callerRef).1).read
            (initSqlFiles ⟨cells⟩ callerRef).2 :=
          Heap.read_write_ne _ cells.length callerRef v hne
      _ = Heap.read ⟨cells⟩ callerRef := h1
  · have hlt : cells.length < (cells ++ [Heap.read ⟨cells⟩ callerRef]).length := by
      simp
    have step1 := Heap.read_write_ne
      ((cells ++ [Heap.read ⟨cells⟩ callerRef]) ++
        [Heap.read ⟨cells ++ [Heap.read ⟨cells⟩ callerRef]⟩ cells.length])
      cells.length ((cells ++ [Heap.read ⟨cells⟩ callerRef]).length) w (by simp)
    have step2 := Heap.read_append_lt (cells ++ [Heap.read ⟨cells⟩ callerRef])
      (Heap.read ⟨cells ++ [Heap.read ⟨cells⟩ callerRef]⟩ cells.length)
      cells.length hlt
    exact step1.trans (step2.trans h1)

/-- Witness for the C10 theorem at a concrete one-cell heap. -/
theorem sql_files_defensive_copies_witness :
    (0 < (Heap.mk [["a.sql"]]).cells.length) ∧
    (((initSqlFiles ⟨[["a.sql"]]⟩ 0).1).read (initSqlFiles ⟨[["a.sql"]]⟩ 0).2 =
        Heap.read ⟨[["a.sql"]]⟩ 0 ∧
      (((initSqlFiles ⟨[["a.sql"]]⟩ 0).1).write 0 []).read
        (initSqlFiles ⟨[["a.sql"]]⟩ 0).2 = Heap.read ⟨[["a.sql"]]⟩ 0 ∧
      ((sqlFilesProperty (initSqlFiles ⟨[["a.sql"]]⟩ 0).1
          (initSqlFiles ⟨[["a.sql"]]⟩ 0).2).1.write
        (sqlFilesProperty (initSqlFiles ⟨[["a.sql"]]⟩ 0).1
          (initSqlFiles ⟨[["a.sql"]]⟩ 0).2).2 ["z"]).read
        (initSqlFiles ⟨[["a.sql"]]⟩ 0).2 = Heap.read ⟨[["a.sql"]]⟩ 0) :=
  ⟨by decide, sql_files_defensive_copies ⟨[["a.sql"]]⟩ 0 (by decide) [] ["z"]⟩

end SQLFileExec
